import Mathlib

/-!
Verification of the fob bundler design against its specification.

The repository ships only Python example programs that call the bundling
engine (`bundler.py`, `advanced_example.py`, `inline_content.py`); the engine
itself (module graph construction, dependency resolver, code splitter,
transform cache, output emitter) is not part of the source tree.  The engine
components are therefore modelled from the specification text, while the
Python scripts are embedded directly from their source.
-/

namespace Fob

/-- Modelled from the spec: the kind annotation of a DependencyEdge
(static, dynamic/lazy, or type-only). -/
inductive ImpKind
  | staticImp
  | dynamicImp
  | typeOnly
deriving DecidableEq, Repr

/-- Modelled from the spec: the result of the Dependency Resolver (not in
the source tree) for one specifier.  A specifier resolves to a bundled
local module, to an externalized package, or fails to resolve. -/
inductive Resolution (n : Nat)
  | localMod (j : Fin n)
  | externalPkg (pkg : String)
  | notFound (reason : String)
deriving DecidableEq, Repr

/-- Modelled from the spec: one entry of a ModuleRecord's import list,
with its specifier, edge kind, and its resolver outcome. -/
structure Imp (n : Nat) where
  spec : String
  kind : ImpKind
  res : Resolution n
deriving DecidableEq, Repr

/-- Modelled from the spec: the ModuleRecord fragment produced by the
Module Transformer (transformed code, size in bytes, import list). -/
structure MRec (n : Nat) where
  code : String
  sizeBytes : Nat
  imports : List (Imp n)
deriving DecidableEq, Repr

/-- Modelled from the spec: a build input over a finite universe of `n`
candidate module identities.  `entries` is the ordered entry list;
`transform` is the Source Provider plus Module Transformer for each module
(its error case covers both a missing file and a parse failure);
`sourceHash` is the transform-cache key of the module; `name` is the
module's base file name used for entry-chunk naming. -/
structure World (n : Nat) where
  entries : List (Fin n)
  transform : Fin n → Except String (MRec n)
  sourceHash : Fin n → String
  name : Fin n → String

/-- Modelled from the spec: the single structured error value of a failed
build, wrapped with the originating module's identity (and, for a
resolution failure, the offending specifier). -/
inductive BuildError (n : Nat)
  | transformFailed (m : Fin n) (reason : String)
  | resolutionFailed (m : Fin n) (spec : String)
deriving DecidableEq, Repr

/-- The originating module identity carried by a build error. -/
def BuildError.moduleOf : BuildError n → Fin n
  | .transformFailed m _ => m
  | .resolutionFailed m _ => m

/-- The local (bundled) successors of a module record: targets of its
static and dynamic imports that resolved to local modules.  The type-only
entries are erased and do not create graph edges. -/
def MRec.localDeps (r : MRec n) : List (Fin n) :=
  r.imports.filterMap (fun i =>
    match i.kind, i.res with
    | .typeOnly, _ => none
    | _, .localMod j => some j
    | _, _ => none)

/-- Modelled from the spec: processing one module during graph
construction — transform it, then resolve each of its non type-only
entries; a failed transform or a failed resolution is fatal and is wrapped
with the module's identity; on success the list of local successors is
returned for further traversal. -/
def visitModule (w : World n) (m : Fin n) : Except (BuildError n) (List (Fin n)) :=
  match w.transform m with
  | .error r => .error (.transformFailed m r)
  | .ok mr =>
    match mr.imports.findSome? (fun i =>
        match i.kind, i.res with
        | .typeOnly, _ => none
        | _, .notFound _ => some i.spec
        | _, _ => none) with
    | some s => .error (.resolutionFailed m s)
    | none => .ok mr.localDeps

/-- Total successor function used to define reachability: the local static
and dynamic import targets of a module (empty if its transform fails). -/
def succs (w : World n) (m : Fin n) : List (Fin n) :=
  match w.transform m with
  | .error _ => []
  | .ok mr => mr.localDeps

/-- The transitive closure of static and dynamic imports from the entry
list, through modules that resolved locally (externalized packages are never
local modules, hence never reachable). -/
inductive Reaches (w : World n) : Fin n → Prop
  | entry (e : Fin n) (he : e ∈ w.entries) : Reaches w e
  | step (m m' : Fin n) (hm : Reaches w m) (h : m' ∈ succs w m) : Reaches w m'

/-- Modelled from the spec: the graph-construction worklist loop with
identity memoization.  `σ` is an arbitrary scheduling choice: at step `t`
the element at position `σ t` (mod worklist length) is processed next,
modelling the unspecified traversal / concurrent completion order.  A
module already visited is never re-transformed or re-resolved.  Termination
is by well-founded recursion: every step either marks a new module visited
(bounded by the universe) or shrinks the worklist. -/
def visitLoop (w : World n) (σ : Nat → Nat) (t : Nat) (wl visited : List (Fin n)) :
    Except (BuildError n) (List (Fin n)) :=
  match wl with
  | [] => .ok visited
  | x :: xs =>
    let m := (x :: xs).get ⟨σ t % (x :: xs).length, Nat.mod_lt _ (Nat.succ_pos xs.length)⟩
    let wl' := (x :: xs).eraseIdx (σ t % (x :: xs).length)
    if hm : m ∈ visited then
      visitLoop w σ (t+1) wl' visited
    else
      match visitModule w m with
      | .error e => .error e
      | .ok deps => visitLoop w σ (t+1) (wl' ++ deps) (visited ++ [m])
termination_by ((Finset.univ \ visited.toFinset).card, wl.length)
decreasing_by
  · apply Prod.Lex.right
    simp [List.length_eraseIdx, Nat.mod_lt _ (Nat.succ_pos xs.length)]
  · apply Prod.Lex.left
    have hmem : m ∈ Finset.univ \ visited.toFinset := by
      simp [hm]
    calc (Finset.univ \ (visited ++ [m]).toFinset).card
        = ((Finset.univ \ visited.toFinset).erase m).card := by
          congr 1
          ext y
          simp [Finset.mem_erase, Finset.mem_sdiff]
          tauto
      _ < (Finset.univ \ visited.toFinset).card := Finset.card_erase_lt_of_mem hmem

/-- Modelled from the spec: module graph construction from the ordered
entry list, returning the list of visited modules in transform order, or
the single error that aborted the build. -/
def buildGraph (w : World n) (σ : Nat → Nat) : Except (BuildError n) (List (Fin n)) :=
  visitLoop w σ 0 w.entries []

/-- Every element of a list either is the element at a given valid index or
belongs to the list with that index erased. -/
lemma mem_get_or_mem_eraseIdx {α : Type _} {l : List α} {k : Nat} (hk : k < l.length) {y : α}
    (hy : y ∈ l) : y = l.get ⟨k, hk⟩ ∨ y ∈ l.eraseIdx k := by
  obtain ⟨j, hj, rfl⟩ := List.mem_iff_getElem.mp hy
  by_cases hjk : j = k
  · subst hjk
    left
    simp
  · right
    exact List.mem_eraseIdx_iff_getElem.mpr ⟨j, hj, hjk, rfl⟩

/-- Erasing an index yields a subset of the original list. -/
lemma mem_of_mem_eraseIdx' {α : Type _} {l : List α} {k : Nat} {y : α}
    (hy : y ∈ l.eraseIdx k) : y ∈ l := by
  obtain ⟨j, hj, _, rfl⟩ := List.mem_eraseIdx_iff_getElem.mp hy
  exact List.getElem_mem hj

/-- A successful visit of a module returns exactly its local successors. -/
lemma visitModule_ok_succs {w : World n} {m : Fin n} {d : List (Fin n)}
    (h : visitModule w m = .ok d) : succs w m = d := by
  unfold visitModule at h
  unfold succs
  split at h
  next r heq => exact absurd h (by simp)
  next mr heq =>
    split at h
    next s hf => exact absurd h (by simp)
    next hf => exact Except.ok.inj h

/-- A failed visit produces an error wrapped with the visited module's
identity. -/
lemma visitModule_error_moduleOf {w : World n} {m : Fin n} {e : BuildError n}
    (h : visitModule w m = .error e) : e.moduleOf = m := by
  unfold visitModule at h
  split at h
  next r heq =>
    injection h with h2
    subst h2
    rfl
  next mr heq =>
    split at h
    next s hf =>
      injection h with h2
      subst h2
      rfl
    next hf => exact absurd h (by simp)

/-- Combined invariant of the worklist loop on success: the result extends
the visited list and absorbs the worklist, is duplicate-free, contains only
reachable modules, and is closed under local successors with every member
successfully visited. -/
lemma visitLoop_ok_props (w : World n) (σ : Nat → Nat) :
    ∀ (t : Nat) (wl visited : List (Fin n)), ∀ v : List (Fin n),
      visitLoop w σ t wl visited = .ok v →
      (∀ x ∈ wl, Reaches w x) →
      (∀ x ∈ visited, Reaches w x) →
      visited.Nodup →
      (∀ x ∈ visited, ∃ d, visitModule w x = .ok d ∧ ∀ y ∈ d, y ∈ visited ∨ y ∈ wl) →
      (∀ x ∈ visited, x ∈ v) ∧ (∀ x ∈ wl, x ∈ v) ∧ v.Nodup ∧
      (∀ x ∈ v, Reaches w x) ∧
      (∀ x ∈ v, ∃ d, visitModule w x = .ok d ∧ ∀ y ∈ d, y ∈ v) := by
  intro t wl visited
  induction t, wl, visited using visitLoop.induct w σ with
  | case1 t visited =>
    intro v hv hwl hvis hnd hclosed
    rw [visitLoop] at hv
    simp only [Except.ok.injEq] at hv
    subst hv
    refine ⟨fun x hx => hx, by simp, hnd, hvis, ?_⟩
    intro x hx
    obtain ⟨d, hd, hsub⟩ := hclosed x hx
    exact ⟨d, hd, fun y hy => (hsub y hy).resolve_right (by simp)⟩
  | case2 t visited x xs m wl' hm ih =>
    intro v hv hwl hvis hnd hclosed
    rw [visitLoop] at hv
    simp only [dif_pos hm] at hv
    have hlt : σ t % (x :: xs).length < (x :: xs).length :=
      Nat.mod_lt _ (Nat.succ_pos xs.length)
    have hsplit : ∀ y ∈ (x :: xs), y = m ∨ y ∈ wl' := fun y hy =>
      mem_get_or_mem_eraseIdx hlt hy
    obtain ⟨h1, h2, h3, h4, h5⟩ := ih v hv
      (fun y hy => hwl y (mem_of_mem_eraseIdx' hy)) hvis hnd
      (fun y hy => by
        obtain ⟨d, hd, hsub⟩ := hclosed y hy
        refine ⟨d, hd, fun z hz => ?_⟩
        rcases hsub z hz with h | h
        · exact Or.inl h
        · rcases hsplit z h with heq | h
          · exact Or.inl (by rw [heq]; exact hm)
          · exact Or.inr h)
    refine ⟨h1, ?_, h3, h4, h5⟩
    intro y hy
    rcases hsplit y hy with heq | h
    · exact h1 y (by rw [heq]; exact hm)
    · exact h2 y h
  | case3 t visited x xs m hm e he =>
    intro v hv hwl hvis hnd hclosed
    rw [visitLoop] at hv
    simp only [dif_neg hm, he] at hv
    exact absurd hv (by simp)
  | case4 t visited x xs m wl' hm deps hdeps ih =>
    intro v hv hwl hvis hnd hclosed
    rw [visitLoop] at hv
    simp only [dif_neg hm, hdeps] at hv
    have hlt : σ t % (x :: xs).length < (x :: xs).length :=
      Nat.mod_lt _ (Nat.succ_pos xs.length)
    have hsplit : ∀ y ∈ (x :: xs), y = m ∨ y ∈ wl' := fun y hy =>
      mem_get_or_mem_eraseIdx hlt hy
    have hmreach : Reaches w m := hwl m (List.get_mem _ _ _)
    have hdepsreach : ∀ y ∈ deps, Reaches w y := fun y hy =>
      Reaches.step m y hmreach (by rw [visitModule_ok_succs hdeps]; exact hy)
    obtain ⟨h1, h2, h3, h4, h5⟩ := ih v hv
      (fun y hy => by
        rcases List.mem_append.mp hy with h | h
        · exact hwl y (mem_of_mem_eraseIdx' h)
        · exact hdepsreach y h)
      (fun y hy => by
        rcases List.mem_append.mp hy with h | h
        · exact hvis y h
        · simp at h
          subst h
          exact hmreach)
      (by simp [List.nodup_append, hnd, hm])
      (fun y hy => by
        rcases List.mem_append.mp hy with h | h
        · obtain ⟨d, hd, hsub⟩ := hclosed y h
          refine ⟨d, hd, fun z hz => ?_⟩
          rcases hsub z hz with h' | h'
          · exact Or.inl (List.mem_append.mpr (Or.inl h'))
          · rcases hsplit z h' with heq | h'
            · exact Or.inl (by rw [heq]; simp)
            · exact Or.inr (List.mem_append.mpr (Or.inl h'))
        · simp at h
          subst h
          refine ⟨deps, hdeps, fun z hz => ?_⟩
          exact Or.inr (List.mem_append.mpr (Or.inr hz)))
    refine ⟨fun y hy => h1 y (List.mem_append.mpr (Or.inl hy)), ?_, h3, h4, h5⟩
    intro y hy
    rcases hsplit y hy with heq | h
    · exact h1 y (by rw [heq]; simp)
    · exact h2 y (List.mem_append.mpr (Or.inl h))

/-- On a successful build, the visited list is duplicate-free, contains the
entries, contains only reachable modules, and is successor-closed with every
member successfully visited. -/
lemma buildGraph_ok_props {w : World n} {σ : Nat → Nat} {v : List (Fin n)}
    (h : buildGraph w σ = .ok v) :
    v.Nodup ∧ (∀ x ∈ w.entries, x ∈ v) ∧ (∀ x ∈ v, Reaches w x) ∧
    (∀ x ∈ v, ∃ d, visitModule w x = .ok d ∧ ∀ y ∈ d, y ∈ v) := by
  obtain ⟨h1, h2, h3, h4, h5⟩ := visitLoop_ok_props w σ 0 w.entries [] v h
    (fun x hx => Reaches.entry x hx) (by simp) (by simp) (by simp)
  exact ⟨h3, h2, h4, h5⟩

/-- On a successful build, every reachable module was visited. -/
lemma buildGraph_ok_complete {w : World n} {σ : Nat → Nat} {v : List (Fin n)}
    (h : buildGraph w σ = .ok v) : ∀ m, Reaches w m → m ∈ v := by
  obtain ⟨_, hent, _, hclosed⟩ := buildGraph_ok_props h
  intro m hm
  induction hm with
  | entry e he => exact hent e he
  | step a b ha hb ih =>
    obtain ⟨d, hd, hsub⟩ := hclosed a ih
    exact hsub b (by rw [visitModule_ok_succs hd] at hb; exact hb)

/-- On a successful build the visited set is exactly the transitive closure
of static and dynamic imports from the entries. -/
lemma buildGraph_ok_mem_iff {w : World n} {σ : Nat → Nat} {v : List (Fin n)}
    (h : buildGraph w σ = .ok v) : ∀ m, m ∈ v ↔ Reaches w m := by
  intro m
  obtain ⟨_, _, hsound, _⟩ := buildGraph_ok_props h
  exact ⟨hsound m, fun hr => buildGraph_ok_complete h m hr⟩

/-- A failed worklist run produced its error from a genuinely failing
reachable module, wrapped with that module's identity. -/
lemma visitLoop_error_props (w : World n) (σ : Nat → Nat) :
    ∀ (t : Nat) (wl visited : List (Fin n)), ∀ e : BuildError n,
      visitLoop w σ t wl visited = .error e →
      (∀ x ∈ wl, Reaches w x) →
      Reaches w e.moduleOf ∧ visitModule w e.moduleOf = .error e := by
  intro t wl visited
  induction t, wl, visited using visitLoop.induct w σ with
  | case1 t visited =>
    intro e he _
    rw [visitLoop] at he
    exact absurd he (by simp)
  | case2 t visited x xs m wl' hm ih =>
    intro e he hwl
    rw [visitLoop] at he
    simp only [dif_pos hm] at he
    exact ih e he (fun y hy => hwl y (mem_of_mem_eraseIdx' hy))
  | case3 t visited x xs m hm e0 he0 =>
    intro e he hwl
    rw [visitLoop] at he
    simp only [dif_neg hm, he0] at he
    have heq : e0 = e := by injection he
    subst heq
    have hmm : Reaches w m := hwl m (List.get_mem _ _ _)
    have hmod := visitModule_error_moduleOf he0
    rw [hmod]
    exact ⟨hmm, he0⟩
  | case4 t visited x xs m wl' hm deps hdeps ih =>
    intro e he hwl
    rw [visitLoop] at he
    simp only [dif_neg hm, hdeps] at he
    have hmreach : Reaches w m := hwl m (List.get_mem _ _ _)
    exact ih e he (fun y hy => by
      rcases List.mem_append.mp hy with h | h
      · exact hwl y (mem_of_mem_eraseIdx' h)
      · exact Reaches.step m y hmreach (by rw [visitModule_ok_succs hdeps]; exact h))

/-- If every reachable module visits successfully, the worklist run succeeds
under every schedule. -/
lemma visitLoop_ok_of_good (w : World n) (σ : Nat → Nat)
    (hgood : ∀ m, Reaches w m → ∃ d, visitModule w m = .ok d) :
    ∀ (t : Nat) (wl visited : List (Fin n)),
      (∀ x ∈ wl, Reaches w x) → ∃ v, visitLoop w σ t wl visited = .ok v := by
  intro t wl visited
  induction t, wl, visited using visitLoop.induct w σ with
  | case1 t visited =>
    intro _
    exact ⟨visited, by rw [visitLoop]⟩
  | case2 t visited x xs m wl' hm ih =>
    intro hwl
    obtain ⟨v, hv⟩ := ih (fun y hy => hwl y (mem_of_mem_eraseIdx' hy))
    exact ⟨v, by rw [visitLoop]; simp only [dif_pos hm]; exact hv⟩
  | case3 t visited x xs m hm e0 he0 =>
    intro hwl
    obtain ⟨d, hd⟩ := hgood m (hwl m (List.get_mem _ _ _))
    rw [hd] at he0
    exact absurd he0 (by simp)
  | case4 t visited x xs m wl' hm deps hdeps ih =>
    intro hwl
    have hmreach : Reaches w m := hwl m (List.get_mem _ _ _)
    obtain ⟨v, hv⟩ := ih (fun y hy => by
      rcases List.mem_append.mp hy with h | h
      · exact hwl y (mem_of_mem_eraseIdx' h)
      · exact Reaches.step m y hmreach (by rw [visitModule_ok_succs hdeps]; exact h))
    exact ⟨v, by rw [visitLoop]; simp only [dif_neg hm, hdeps]; exact hv⟩

/-- If every reachable module visits successfully, graph construction
succeeds under every schedule. -/
lemma buildGraph_ok_of_good {w : World n} (σ : Nat → Nat)
    (hgood : ∀ m, Reaches w m → ∃ d, visitModule w m = .ok d) :
    ∃ v, buildGraph w σ = .ok v :=
  visitLoop_ok_of_good w σ hgood 0 w.entries [] (fun x hx => Reaches.entry x hx)

/-- A failed graph construction produced its error from a genuinely failing
reachable module, wrapped with that module's identity. -/
lemma buildGraph_error_props {w : World n} {σ : Nat → Nat} {e : BuildError n}
    (h : buildGraph w σ = .error e) :
    Reaches w e.moduleOf ∧ visitModule w e.moduleOf = .error e :=
  visitLoop_error_props w σ 0 w.entries [] e h (fun x hx => Reaches.entry x hx)

/-- Modelled from the spec: one deterministic reachability-expansion step —
a set of modules together with all local import targets of its members. -/
def stepF (w : World n) (S : Finset (Fin n)) : Finset (Fin n) :=
  S ∪ S.biUnion (fun m => (succs w m).toFinset)

/-- Modelled from the spec: deterministic transitive-closure computation by
iterating the expansion step as many times as there are candidate modules,
which reaches the fixed point.  The splitter computes reachability sets with
this order-independent computation, never from traversal arrival order. -/
def closureF (w : World n) (init : Finset (Fin n)) : Finset (Fin n) :=
  (stepF w)^[n] init

lemma subset_stepF (w : World n) (S : Finset (Fin n)) : S ⊆ stepF w S :=
  Finset.subset_union_left

lemma iterate_stepF_subset_succ (w : World n) (init : Finset (Fin n)) (k : Nat) :
    (stepF w)^[k] init ⊆ (stepF w)^[k+1] init := by
  rw [Function.iterate_succ_apply']
  exact subset_stepF _ _

lemma iterate_stepF_stab (w : World n) (init : Finset (Fin n)) {k : Nat}
    (h : (stepF w)^[k+1] init = (stepF w)^[k] init) :
    ∀ j, k ≤ j → (stepF w)^[j] init = (stepF w)^[k] init := by
  intro j
  induction j with
  | zero =>
    intro hj
    have : k = 0 := by omega
    rw [this]
  | succ j ih =>
    intro hj
    rcases Nat.lt_or_ge k (j+1) with h1 | h1
    · have hkj : k ≤ j := by omega
      rw [Function.iterate_succ_apply', ih hkj]
      exact ((Function.iterate_succ_apply' (stepF w) k init).symm).trans h
    · have hkeq : k = j + 1 := by omega
      rw [hkeq]

lemma exists_stab (w : World n) (init : Finset (Fin n)) :
    ∃ k, k ≤ n ∧ (stepF w)^[k+1] init = (stepF w)^[k] init := by
  by_contra hc
  push_neg at hc
  have hmono : ∀ k, k ≤ n + 1 → k ≤ ((stepF w)^[k] init).card := by
    intro k
    induction k with
    | zero => simp
    | succ k ih =>
      intro hk
      have hk' : k ≤ n := by omega
      have hne := hc k hk'
      have hss : (stepF w)^[k] init ⊂ (stepF w)^[k+1] init :=
        lt_of_le_of_ne (iterate_stepF_subset_succ w init k) (fun h => hne h.symm)
      have hcard := Finset.card_lt_card hss
      have ihk := ih (by omega)
      omega
  have h1 := hmono (n+1) le_rfl
  have h2 : ((stepF w)^[n+1] init).card ≤ n := by
    have := Finset.card_le_univ ((stepF w)^[n+1] init)
    simpa [Finset.card_univ] using this
  omega

/-- The computed closure is a fixed point of the expansion step. -/
lemma stepF_closureF (w : World n) (init : Finset (Fin n)) :
    stepF w (closureF w init) = closureF w init := by
  obtain ⟨k, hk, hstab⟩ := exists_stab w init
  unfold closureF
  have h1 : (stepF w)^[n] init = (stepF w)^[k] init := iterate_stepF_stab w init hstab n hk
  have h2 : (stepF w)^[n+1] init = (stepF w)^[k] init :=
    iterate_stepF_stab w init hstab (n+1) (by omega)
  rw [h1]
  exact ((Function.iterate_succ_apply' (stepF w) k init).symm).trans hstab

lemma subset_iterate_stepF (w : World n) (init : Finset (Fin n)) :
    ∀ k, init ⊆ (stepF w)^[k] init := by
  intro k
  induction k with
  | zero => simp
  | succ k ih => exact ih.trans (iterate_stepF_subset_succ w init k)

lemma subset_closureF (w : World n) (init : Finset (Fin n)) : init ⊆ closureF w init :=
  subset_iterate_stepF w init n

lemma mem_iterate_stepF_reaches (w : World n) (k : Nat) :
    ∀ m ∈ (stepF w)^[k] w.entries.toFinset, Reaches w m := by
  induction k with
  | zero =>
    intro m hm
    simp only [Function.iterate_zero, id_eq, List.mem_toFinset] at hm
    exact Reaches.entry m hm
  | succ k ih =>
    intro m hm
    rw [Function.iterate_succ_apply'] at hm
    unfold stepF at hm
    simp only [Finset.mem_union, Finset.mem_biUnion, List.mem_toFinset] at hm
    rcases hm with h | ⟨p, hp, hpm⟩
    · exact ih m h
    · exact Reaches.step p m (ih p hp) hpm

lemma reaches_mem_closureF (w : World n) {m : Fin n} (h : Reaches w m) :
    m ∈ closureF w w.entries.toFinset := by
  induction h with
  | entry e he => exact subset_closureF w _ (List.mem_toFinset.mpr he)
  | step a b ha hb ih =>
    rw [← stepF_closureF w w.entries.toFinset]
    unfold stepF
    simp only [Finset.mem_union, Finset.mem_biUnion, List.mem_toFinset]
    exact Or.inr ⟨a, ih, hb⟩

/-- The computed closure from the entries is exactly the reachable set. -/
lemma mem_closureF_iff_reaches (w : World n) (m : Fin n) :
    m ∈ closureF w w.entries.toFinset ↔ Reaches w m :=
  ⟨fun h => mem_iterate_stepF_reaches w n m h, reaches_mem_closureF w⟩

/-- The dynamic-import local targets of a module. -/
def dynImports (w : World n) (p : Fin n) : List (Fin n) :=
  match w.transform p with
  | .error _ => []
  | .ok mr => mr.imports.filterMap (fun i =>
      match i.kind, i.res with
      | .dynamicImp, .localMod j => some j
      | _, _ => none)

/-- Modelled from the spec: the code-splitting thresholds of app mode. -/
structure SplitCfg where
  minSize : Nat
  minImports : Nat
deriving DecidableEq, Repr

/-- The identity of an output chunk during splitting: an entry chunk, a
dynamic-import chunk boundary, or a shared chunk keyed by its sorted
reachability-set signature. -/
inductive ChunkKey (n : Nat)
  | entryChunk (i : Nat)
  | dynChunk (m : Fin n)
  | sharedChunk (sig : List Nat)
deriving DecidableEq, Repr

/-- Whether a chunk key is a dynamic-import chunk boundary. -/
def isDynKey : ChunkKey n → Bool
  | .dynChunk _ => true
  | _ => false

/-- Modelled from the spec: the sorted reachability-set signature of a
module — the indices of the entries whose chunks transitively depend on it,
in ascending entry order (a total order independent of traversal order). -/
def entryReachSet (w : World n) (m : Fin n) : List Nat :=
  (w.entries.enum.filter (fun p => decide (m ∈ closureF w {p.2}))).map Prod.fst

/-- Modelled from the spec: the initial chunk assignment of app mode.  An
entry module anchors its entry chunk (entry isolation).  A module that is
the target of a dynamic import from a graph module is placed at its own
chunk boundary.  Otherwise the reachability-set signature decides: a single
consumer owns the module; at least `minImports` consumers with an identical
signature form a shared chunk; strictly between those cases the module is
placed with its lowest-indexed consumer (the documented default policy). -/
def chunkKeyOf (w : World n) (G : Finset (Fin n)) (cfg : SplitCfg) (m : Fin n) : ChunkKey n :=
  if m ∈ w.entries then .entryChunk (w.entries.indexOf m)
  else if ∃ p ∈ G, m ∈ dynImports w p then .dynChunk m
  else
    let R := entryReachSet w m
    if R.length = 1 ∨ R.length < cfg.minImports then .entryChunk (R.headD 0)
    else .sharedChunk R

/-- Transformed size of a module (0 when its transform failed; such a
module never appears in a successful build). -/
def moduleSize (w : World n) (m : Fin n) : Nat :=
  match w.transform m with
  | .error _ => 0
  | .ok mr => mr.sizeBytes

/-- Transformed code of a module. -/
def moduleCode (w : World n) (m : Fin n) : String :=
  match w.transform m with
  | .error _ => ""
  | .ok mr => mr.code

/-- The total size of the modules currently assigned to a chunk key. -/
def chunkSize (w : World n) (L : List (Fin n)) (f : Fin n → ChunkKey n)
    (k : ChunkKey n) : Nat :=
  ((L.filter (fun m => decide (f m = k))).map (moduleSize w)).sum

/-- Whether module p imports some module currently assigned to chunk k. -/
def consumesChunk (w : World n) (L : List (Fin n)) (f : Fin n → ChunkKey n)
    (p : Fin n) (k : ChunkKey n) : Bool :=
  (succs w p).any (fun m => decide (f m = k) && decide (m ∈ L))

/-- How many modules of chunk j consume chunk k. -/
def consumerScore (w : World n) (L : List (Fin n)) (f : Fin n → ChunkKey n)
    (j k : ChunkKey n) : Nat :=
  (L.filter (fun p => decide (f p = j) && consumesChunk w L f p k)).length

/-- Modelled from the spec: the merge target for an undersized chunk — the
candidate chunk most of its consumers already load, ties broken by the
earlier chunk in the deterministic key order. -/
def bestTarget (w : World n) (L : List (Fin n)) (f : Fin n → ChunkKey n)
    (k : ChunkKey n) (c : ChunkKey n) (cs : List (ChunkKey n)) : ChunkKey n :=
  cs.foldl (fun best j =>
    if consumerScore w L f best k < consumerScore w L f j k then j else best) c

/-- Modelled from the spec: find one chunk below the size threshold that can
be merged without breaking dynamic-import isolation (neither the merged
chunk nor its target is a dynamic chunk boundary), with its merge target. -/
def mergeCandidate (w : World n) (L : List (Fin n)) (cfg : SplitCfg)
    (f : Fin n → ChunkKey n) : Option (ChunkKey n × ChunkKey n) :=
  let keys := (L.map f).dedup
  (keys.filter (fun k => !isDynKey k && decide (chunkSize w L f k < cfg.minSize))).findSome?
    (fun k =>
      match keys.filter (fun j => !isDynKey j && decide (j ≠ k)) with
      | [] => none
      | c :: cs => some (k, bestTarget w L f k c cs))

/-- Modelled from the spec: the repeated merge pass — while some chunk is
below `minSize` and can be merged without violating dynamic-import
isolation, fold it into its merge target; each merge removes one chunk, so
the initial chunk count bounds the iteration. -/
def mergePass (w : World n) (L : List (Fin n)) (cfg : SplitCfg) :
    Nat → (Fin n → ChunkKey n) → (Fin n → ChunkKey n)
  | 0, f => f
  | fuel+1, f =>
    match mergeCandidate w L cfg f with
    | none => f
    | some (k, tgt) => mergePass w L cfg fuel (fun m => if f m = k then tgt else f m)

/-- An emitted chunk: deterministic file name, its modules in canonical
order, its serialized contents, and its size. -/
structure Chunk (n : Nat) where
  fileName : String
  modules : List (Fin n)
  contents : String
  size : Nat
deriving DecidableEq, Repr

/-- Build statistics returned with a successful build. -/
structure Stats where
  totalModules : Nat
  totalChunks : Nat
  totalSize : Nat
  cacheHitRate : Rat
deriving DecidableEq, Repr

/-- The immutable result of a successful build. -/
structure BuildResult (n : Nat) where
  chunks : List (Chunk n)
  stats : Stats
deriving DecidableEq, Repr

/-- Modelled from the spec: deterministic chunk file naming — entry chunks
take the entry's base name, dynamic chunks the target module's name, shared
chunks a content-derived name. -/
def chunkName (w : World n) (k : ChunkKey n) (ms : List (Fin n)) : String :=
  match k with
  | .entryChunk i =>
    match w.entries[i]? with
    | some e => w.name e
    | none => "chunk"
  | .dynChunk m => w.name m
  | .sharedChunk _ => "shared-" ++ String.join (ms.map (moduleCode w))

/-- Serialize the chunk of one key: its modules in canonical order with
their concatenated code. -/
def mkChunk (w : World n) (L : List (Fin n)) (f : Fin n → ChunkKey n)
    (k : ChunkKey n) : Chunk n :=
  { fileName := chunkName w k (L.filter (fun m => decide (f m = k)))
    modules := L.filter (fun m => decide (f m = k))
    contents := String.join ((L.filter (fun m => decide (f m = k))).map (moduleCode w))
    size := ((L.filter (fun m => decide (f m = k))).map (moduleSize w)).sum }

/-- Modelled from the spec: serialize every chunk, one per distinct final
chunk key, keys in deterministic first-occurrence order over the canonical
module list. -/
def assembleChunks (w : World n) (L : List (Fin n)) (f : Fin n → ChunkKey n) :
    List (Chunk n) :=
  ((L.map f).dedup).map (mkChunk w L f)

/-- The canonical module list of a completed graph: the visited modules in
ascending module order — a function of the visited set only, independent of
the traversal order that produced it. -/
def graphList (v : List (Fin n)) : List (Fin n) :=
  (List.finRange n).filter (fun m => decide (m ∈ v))

/-- The final chunk assignment: initial app-mode assignment followed by the
merge pass. -/
def finalKey (w : World n) (cfg : SplitCfg) (v : List (Fin n)) : Fin n → ChunkKey n :=
  mergePass w (graphList v) cfg
    (((graphList v).map (chunkKeyOf w (graphList v).toFinset cfg)).dedup).length
    (chunkKeyOf w (graphList v).toFinset cfg)

/-- Modelled from the spec: the hit-rate formula, defined as 0 when no
transforms were attempted. -/
def hitRate (hits misses : Nat) : Rat :=
  if hits + misses = 0 then 0 else (hits : Rat) / ((hits : Rat) + (misses : Rat))

/-- Modelled from the spec: assemble the successful build result — chunks
plus statistics.  `cache` is the set of transform-cache keys present before
the build; every graph module performs exactly one cache lookup, counted as
a hit when its source hash is present. -/
def mkResult (w : World n) (cfg : SplitCfg) (cache : List String)
    (v : List (Fin n)) : BuildResult n :=
  { chunks := assembleChunks w (graphList v) (finalKey w cfg v)
    stats :=
      { totalModules := (graphList v).length
        totalChunks := (assembleChunks w (graphList v) (finalKey w cfg v)).length
        totalSize :=
          ((assembleChunks w (graphList v) (finalKey w cfg v)).map Chunk.size).sum
        cacheHitRate :=
          hitRate (((graphList v).filter
              (fun m => decide (w.sourceHash m ∈ cache))).length)
            (((graphList v).filter
              (fun m => decide (w.sourceHash m ∉ cache))).length) } }

/-- Modelled from the spec: the full build pipeline — construct the module
graph (aborting with the single error of the first failure), then split the
completed graph into chunks and emit the result. -/
def bundle (w : World n) (cfg : SplitCfg) (cache : List String) (σ : Nat → Nat) :
    Except (BuildError n) (BuildResult n) :=
  match buildGraph w σ with
  | .error e => .error e
  | .ok v => .ok (mkResult w cfg cache v)

/-- Modelled from the spec: the files the Output Emitter writes — each
chunk's file name and contents on success, nothing when the build aborted
with an error (no partial output). -/
def filesWritten (r : Except (BuildError n) (BuildResult n)) :
    List (String × String) :=
  match r with
  | .error _ => []
  | .ok res => res.chunks.map (fun c => (c.fileName, c.contents))

lemma mem_graphList {v : List (Fin n)} {m : Fin n} : m ∈ graphList v ↔ m ∈ v := by
  unfold graphList
  simp [List.mem_filter, List.mem_finRange]

lemma graphList_nodup (v : List (Fin n)) : (graphList v).Nodup :=
  (List.nodup_finRange n).filter _

/-- The canonical module list depends only on the visited set. -/
lemma graphList_eq_of_mem_iff {v₁ v₂ : List (Fin n)} (h : ∀ m, m ∈ v₁ ↔ m ∈ v₂) :
    graphList v₁ = graphList v₂ := by
  unfold graphList
  exact List.filter_congr (fun m _ => by simp [h m])

lemma mem_assembleChunks_iff {w : World n} {L : List (Fin n)} {f : Fin n → ChunkKey n}
    {c : Chunk n} :
    c ∈ assembleChunks w L f ↔ ∃ k ∈ (L.map f).dedup, c = mkChunk w L f k := by
  unfold assembleChunks
  constructor
  · intro h
    obtain ⟨k, hk, hc⟩ := List.mem_map.mp h
    exact ⟨k, hk, hc.symm⟩
  · rintro ⟨k, hk, rfl⟩
    exact List.mem_map.mpr ⟨k, hk, rfl⟩

lemma mem_mkChunk_modules {w : World n} {L : List (Fin n)} {f : Fin n → ChunkKey n}
    {k : ChunkKey n} {m : Fin n} :
    m ∈ (mkChunk w L f k).modules ↔ m ∈ L ∧ f m = k := by
  unfold mkChunk
  simp [List.mem_filter]

/-- Every module of the canonical list lands in some assembled chunk. -/
lemma assembleChunks_cover {w : World n} {L : List (Fin n)} {f : Fin n → ChunkKey n}
    {m : Fin n} (hm : m ∈ L) : ∃ c ∈ assembleChunks w L f, m ∈ c.modules := by
  refine ⟨mkChunk w L f (f m), ?_, ?_⟩
  · exact mem_assembleChunks_iff.mpr
      ⟨f m, List.mem_dedup.mpr (List.mem_map_of_mem f hm), rfl⟩
  · exact mem_mkChunk_modules.mpr ⟨hm, rfl⟩

/-- Two assembled chunks sharing a module are the same chunk. -/
lemma assembleChunks_unique {w : World n} {L : List (Fin n)} {f : Fin n → ChunkKey n}
    {c c' : Chunk n} (hc : c ∈ assembleChunks w L f) (hc' : c' ∈ assembleChunks w L f)
    {m : Fin n} (hm : m ∈ c.modules) (hm' : m ∈ c'.modules) : c = c' := by
  obtain ⟨k, hk, rfl⟩ := mem_assembleChunks_iff.mp hc
  obtain ⟨k', hk', rfl⟩ := mem_assembleChunks_iff.mp hc'
  obtain ⟨_, h1⟩ := mem_mkChunk_modules.mp hm
  obtain ⟨_, h2⟩ := mem_mkChunk_modules.mp hm'
  rw [h1.symm.trans h2]

/-- Every module of an assembled chunk comes from the canonical list. -/
lemma assembleChunks_sound {w : World n} {L : List (Fin n)} {f : Fin n → ChunkKey n}
    {c : Chunk n} (hc : c ∈ assembleChunks w L f) {m : Fin n} (hm : m ∈ c.modules) :
    m ∈ L := by
  obtain ⟨k, hk, rfl⟩ := mem_assembleChunks_iff.mp hc
  exact (mem_mkChunk_modules.mp hm).1

/-- A fold that at each step keeps either the accumulator or the new element
ends on one of the candidates. -/
lemma foldl_choice_mem {α : Type _} (g : α → α → α)
    (hg : ∀ a b, g a b = a ∨ g a b = b) :
    ∀ (cs : List α) (c : α), cs.foldl g c ∈ c :: cs := by
  intro cs
  induction cs with
  | nil =>
    intro c
    simp
  | cons j cs ih =>
    intro c
    simp only [List.foldl_cons]
    have hmem := ih (g c j)
    rcases List.mem_cons.mp hmem with h | h
    · rw [h]
      rcases hg c j with h2 | h2 <;> rw [h2] <;> simp
    · simp [h]

/-- The chosen merge target is one of the candidate chunks. -/
lemma bestTarget_mem (w : World n) (L : List (Fin n)) (f : Fin n → ChunkKey n)
    (k c : ChunkKey n) (cs : List (ChunkKey n)) : bestTarget w L f k c cs ∈ c :: cs := by
  unfold bestTarget
  exact foldl_choice_mem _
    (fun a b => by
      by_cases h : consumerScore w L f a k < consumerScore w L f b k <;> simp [h]) cs c

/-- A merge step never merges a dynamic chunk boundary and never merges
into one. -/
lemma mergeCandidate_not_dyn {w : World n} {L : List (Fin n)} {cfg : SplitCfg}
    {f : Fin n → ChunkKey n} {k tgt : ChunkKey n}
    (h : mergeCandidate w L cfg f = some (k, tgt)) :
    isDynKey k = false ∧ isDynKey tgt = false := by
  unfold mergeCandidate at h
  obtain ⟨k0, hk0mem, hk0⟩ := List.exists_of_findSome?_eq_some h
  have hk0dyn : isDynKey k0 = false := by
    have := (List.mem_filter.mp hk0mem).2
    simp only [Bool.and_eq_true, Bool.not_eq_true'] at this
    exact this.1
  revert hk0
  cases hflt : ((L.map f).dedup).filter (fun j => !isDynKey j && decide (j ≠ k0)) with
  | nil =>
    intro hk0
    exact absurd hk0 (by simp)
  | cons c cs =>
    intro hk0
    simp only [Option.some.injEq, Prod.mk.injEq] at hk0
    obtain ⟨hkk, htt⟩ := hk0
    subst hkk
    refine ⟨hk0dyn, ?_⟩
    have hmem : bestTarget w L f k0 c cs ∈ c :: cs := bestTarget_mem w L f k0 c cs
    rw [← hflt] at hmem
    have := (List.mem_filter.mp hmem).2
    simp only [Bool.and_eq_true, Bool.not_eq_true'] at this
    rw [← htt]
    exact this.1

/-- The merge pass never moves a module away from a dynamic chunk
boundary. -/
lemma mergePass_dyn_fixed (w : World n) (L : List (Fin n)) (cfg : SplitCfg) :
    ∀ (fuel : Nat) (f : Fin n → ChunkKey n) (m : Fin n), isDynKey (f m) = true →
      mergePass w L cfg fuel f m = f m := by
  intro fuel
  induction fuel with
  | zero =>
    intro f m _
    rfl
  | succ fuel ih =>
    intro f m hdyn
    unfold mergePass
    cases hmc : mergeCandidate w L cfg f with
    | none => rfl
    | some p =>
      obtain ⟨k, tgt⟩ := p
      obtain ⟨hk, htgt⟩ := mergeCandidate_not_dyn hmc
      have hne : f m ≠ k := fun hfm => by rw [hfm, hk] at hdyn; cases hdyn
      show mergePass w L cfg fuel (fun m' => if f m' = k then tgt else f m') m = f m
      have hdyn2 : isDynKey ((fun m' => if f m' = k then tgt else f m') m) = true := by
        simp only [if_neg hne]
        exact hdyn
      rw [ih _ m hdyn2]
      simp only [if_neg hne]

/-- The merge pass never moves a module onto a dynamic chunk boundary it
was not already on. -/
lemma mergePass_dyn_source (w : World n) (L : List (Fin n)) (cfg : SplitCfg) :
    ∀ (fuel : Nat) (f : Fin n → ChunkKey n) (m : Fin n),
      isDynKey (mergePass w L cfg fuel f m) = true →
      mergePass w L cfg fuel f m = f m := by
  intro fuel
  induction fuel with
  | zero =>
    intro f m _
    rfl
  | succ fuel ih =>
    intro f m hdyn
    unfold mergePass at hdyn ⊢
    cases hmc : mergeCandidate w L cfg f with
    | none => rfl
    | some p =>
      obtain ⟨k, tgt⟩ := p
      obtain ⟨hk, htgt⟩ := mergeCandidate_not_dyn hmc
      rw [hmc] at hdyn
      have hdyn2 : isDynKey
          (mergePass w L cfg fuel (fun m' => if f m' = k then tgt else f m') m) = true := hdyn
      have h2 := ih _ m hdyn2
      show mergePass w L cfg fuel (fun m' => if f m' = k then tgt else f m') m = f m
      rw [h2] at hdyn2 ⊢
      by_cases hfm : f m = k
      · rw [if_pos hfm] at hdyn2
        rw [htgt] at hdyn2
        cases hdyn2
      · rw [if_neg hfm]

/-- A module is assigned a dynamic chunk key only for itself. -/
lemma chunkKeyOf_dynChunk_inj {w : World n} {G : Finset (Fin n)} {cfg : SplitCfg}
    {p q : Fin n} (h : chunkKeyOf w G cfg p = .dynChunk q) : q = p := by
  unfold chunkKeyOf at h
  split at h
  · exact absurd h (by simp)
  · split at h
    · exact (ChunkKey.dynChunk.inj h).symm
    · have h2 : (if (entryReachSet w p).length = 1 ∨ (entryReachSet w p).length < cfg.minImports
          then ChunkKey.entryChunk ((entryReachSet w p).headD 0)
          else ChunkKey.sharedChunk (entryReachSet w p)) = ChunkKey.dynChunk q := h
      by_cases hc : (entryReachSet w p).length = 1 ∨ (entryReachSet w p).length < cfg.minImports
      · rw [if_pos hc] at h2
        exact absurd h2 (by simp)
      · rw [if_neg hc] at h2
        exact absurd h2 (by simp)

/-- A non-entry module with a dynamic in-edge from a graph module is placed
at its own chunk boundary by the initial assignment. -/
lemma chunkKeyOf_dyn_of {w : World n} {G : Finset (Fin n)} {cfg : SplitCfg} {m : Fin n}
    (h1 : m ∉ w.entries) (h2 : ∃ p ∈ G, m ∈ dynImports w p) :
    chunkKeyOf w G cfg m = .dynChunk m := by
  unfold chunkKeyOf
  rw [if_neg h1, if_pos h2]

/-- Inversion of a successful bundle: the graph construction succeeded and
the result is assembled from its visited list. -/
lemma bundle_ok_inv {w : World n} {cfg : SplitCfg} {cache : List String}
    {σ : Nat → Nat} {r : BuildResult n} (h : bundle w cfg cache σ = .ok r) :
    ∃ v, buildGraph w σ = .ok v ∧ r = mkResult w cfg cache v := by
  unfold bundle at h
  split at h
  next e he => exact absurd h (by simp)
  next v hv => exact ⟨v, hv, (Except.ok.inj h).symm⟩

lemma mkResult_chunks (w : World n) (cfg : SplitCfg) (cache : List String)
    (v : List (Fin n)) :
    (mkResult w cfg cache v).chunks = assembleChunks w (graphList v) (finalKey w cfg v) :=
  rfl

/-- On a successful build the canonical module list's set is the computed
closure of the entries. -/
lemma graphList_toFinset_eq_closure {w : World n} {σ : Nat → Nat} {v : List (Fin n)}
    (hv : buildGraph w σ = .ok v) :
    (graphList v).toFinset = closureF w w.entries.toFinset := by
  ext m
  rw [List.mem_toFinset, mem_graphList, buildGraph_ok_mem_iff hv m,
    mem_closureF_iff_reaches]

/-- C1: for every valid build input on which the build succeeds, the set of
ModuleIds appearing across the chunks of the returned BuildResult equals
exactly the transitive closure of static and dynamic imports reachable from
the entry list.  Modules that resolved to External are subtracted by
construction: an externalized resolution yields no local module identity,
creates no graph node, and is never traversed, so it can never appear in a
chunk. -/
theorem c1_chunk_modules_eq_import_closure {w : World n} {cfg : SplitCfg}
    {cache : List String} {σ : Nat → Nat} {r : BuildResult n}
    (h : bundle w cfg cache σ = .ok r) (m : Fin n) :
    (∃ c ∈ r.chunks, m ∈ c.modules) ↔ Reaches w m := by
  obtain ⟨v, hv, rfl⟩ := bundle_ok_inv h
  rw [mkResult_chunks]
  have hmem := buildGraph_ok_mem_iff hv
  constructor
  · rintro ⟨c, hc, hm⟩
    exact (hmem m).mp (mem_graphList.mp (assembleChunks_sound hc hm))
  · intro hr
    exact assembleChunks_cover (mem_graphList.mpr ((hmem m).mpr hr))

/-- C2: the chunks of a completed build partition the module graph — every
module of the completed graph is assigned to exactly one chunk of the
result, so no ModuleId appears in more than one chunk. -/
theorem c2_chunks_partition_graph {w : World n} {cfg : SplitCfg}
    {cache : List String} {σ : Nat → Nat} {r : BuildResult n}
    (h : bundle w cfg cache σ = .ok r) (m : Fin n) (hm : Reaches w m) :
    ∃! c, c ∈ r.chunks ∧ m ∈ c.modules := by
  obtain ⟨v, hv, rfl⟩ := bundle_ok_inv h
  rw [mkResult_chunks]
  have hmL : m ∈ graphList v := mem_graphList.mpr ((buildGraph_ok_mem_iff hv m).mpr hm)
  obtain ⟨c, hc, hcm⟩ := assembleChunks_cover hmL
  refine ⟨c, ⟨hc, hcm⟩, ?_⟩
  rintro c' ⟨hc', hcm'⟩
  exact assembleChunks_unique hc' hc hcm' hcm

/-- C3: determinism — for a fixed entry list, fixed file contents and fixed
configuration (all packed in the world) and a fixed pre-build cache state,
a successful build returns the same BuildResult — byte-identical chunk
contents, identical chunk assignment and ordering, identical file names and
statistics — under every traversal schedule, because all output is computed
from the schedule-independent visited set through total orders. -/
theorem c3_deterministic_output {w : World n} {cfg : SplitCfg} {cache : List String}
    {σ₁ σ₂ : Nat → Nat} {r : BuildResult n}
    (h : bundle w cfg cache σ₁ = .ok r) : bundle w cfg cache σ₂ = .ok r := by
  obtain ⟨v₁, hv₁, rfl⟩ := bundle_ok_inv h
  have hgood : ∀ m, Reaches w m → ∃ d, visitModule w m = .ok d := by
    intro m hm
    obtain ⟨_, _, _, hclosed⟩ := buildGraph_ok_props hv₁
    obtain ⟨d, hd, _⟩ := hclosed m (buildGraph_ok_complete hv₁ m hm)
    exact ⟨d, hd⟩
  obtain ⟨v₂, hv₂⟩ := buildGraph_ok_of_good σ₂ hgood
  have hsets : ∀ m, m ∈ v₂ ↔ m ∈ v₁ := by
    intro m
    rw [buildGraph_ok_mem_iff hv₂ m, buildGraph_ok_mem_iff hv₁ m]
  have hgl : graphList v₂ = graphList v₁ := graphList_eq_of_mem_iff hsets
  have hres : mkResult w cfg cache v₂ = mkResult w cfg cache v₁ := by
    unfold mkResult finalKey
    rw [hgl]
  have hb2 : bundle w cfg cache σ₂ = .ok (mkResult w cfg cache v₂) := by
    unfold bundle
    rw [hv₂]
  rw [hb2, hres]

/-- C6: dynamic-import isolation — a graph module that is not an entry and
is reached only via dynamic imports (every import edge from a graph module
into it is dynamic) is placed at its own chunk boundary: it lies in some
chunk, and no chunk containing it contains any of its importers, for every
threshold configuration and despite the below-threshold merge pass, which
never merges a dynamic chunk boundary in either direction. -/
theorem c6_dynamic_import_isolation {w : World n} {cfg : SplitCfg}
    {cache : List String} {σ : Nat → Nat} {r : BuildResult n}
    (h : bundle w cfg cache σ = .ok r) {m p : Fin n}
    (hm : Reaches w m) (hment : m ∉ w.entries)
    (honly : ∀ q, Reaches w q → m ∈ succs w q → m ∈ dynImports w q)
    (hp : Reaches w p) (himp : m ∈ succs w p) (hne : p ≠ m) :
    (∃ c ∈ r.chunks, m ∈ c.modules) ∧
      ∀ c ∈ r.chunks, m ∈ c.modules → p ∉ c.modules := by
  obtain ⟨v, hv, rfl⟩ := bundle_ok_inv h
  rw [mkResult_chunks]
  have hmemiff := buildGraph_ok_mem_iff hv
  have hmL : m ∈ graphList v := mem_graphList.mpr ((hmemiff m).mpr hm)
  have hpG : p ∈ (graphList v).toFinset :=
    List.mem_toFinset.mpr (mem_graphList.mpr ((hmemiff p).mpr hp))
  have hdynin : ∃ q ∈ (graphList v).toFinset, m ∈ dynImports w q :=
    ⟨p, hpG, honly p hp himp⟩
  have hkey : chunkKeyOf w (graphList v).toFinset cfg m = ChunkKey.dynChunk m :=
    chunkKeyOf_dyn_of hment hdynin
  have hfm : finalKey w cfg v m = ChunkKey.dynChunk m := by
    unfold finalKey
    rw [mergePass_dyn_fixed w (graphList v) cfg _ _ m (by rw [hkey]; rfl), hkey]
  have hfp : finalKey w cfg v p ≠ ChunkKey.dynChunk m := by
    intro hcontra
    have hdynp : isDynKey (finalKey w cfg v p) = true := by
      rw [hcontra]
      rfl
    have hsrc : finalKey w cfg v p = chunkKeyOf w (graphList v).toFinset cfg p :=
      mergePass_dyn_source w (graphList v) cfg _ _ p hdynp
    rw [hsrc] at hcontra
    exact hne (chunkKeyOf_dynChunk_inj hcontra).symm
  refine ⟨assembleChunks_cover hmL, ?_⟩
  intro c hc hmc hpc
  obtain ⟨k, hk, rfl⟩ := mem_assembleChunks_iff.mp hc
  obtain ⟨_, hkm⟩ := mem_mkChunk_modules.mp hmc
  obtain ⟨_, hkp⟩ := mem_mkChunk_modules.mp hpc
  rw [hfm] at hkm
  rw [← hkm] at hkp
  exact hfp hkp

/-- C7: cycle safety — graph construction is a total function (it is
defined by well-founded recursion, so it terminates on every input, module
graphs with import cycles included), and whenever it completes successfully
the visited list, which is exactly the sequence of transform-and-resolve
operations performed, has no duplicates — each ModuleId is transformed and
resolved at most once per build — and consists exactly of the modules
reachable from the entries. -/
theorem c7_cycles_terminate_once_each {w : World n} {σ : Nat → Nat}
    {v : List (Fin n)} (h : buildGraph w σ = .ok v) :
    v.Nodup ∧ ∀ m, m ∈ v ↔ Reaches w m := by
  obtain ⟨hnd, _, _, _⟩ := buildGraph_ok_props h
  exact ⟨hnd, buildGraph_ok_mem_iff h⟩

/-- C8: when some reachable module fails to transform or resolve (a
nonexistent entry file being the transform-failure case for an entry), the
build aborts under every schedule with exactly one structured error value —
the Except result carries a single BuildError — wrapped with the identity
of a genuinely failing reachable module (and, for a resolution failure, the
offending specifier), and zero output files are written. -/
theorem c8_failure_aborts_build_no_files {w : World n} {cfg : SplitCfg}
    {cache : List String} (σ : Nat → Nat) {m : Fin n}
    (hm : Reaches w m) (hbad : ∃ e0, visitModule w m = .error e0) :
    ∃ e, bundle w cfg cache σ = .error e ∧
      Reaches w (BuildError.moduleOf e) ∧
      visitModule w (BuildError.moduleOf e) = .error e ∧
      filesWritten (bundle w cfg cache σ) = [] := by
  obtain ⟨e0, he0⟩ := hbad
  cases hb : buildGraph w σ with
  | ok v =>
    obtain ⟨_, _, _, hclosed⟩ := buildGraph_ok_props hb
    obtain ⟨d, hd, _⟩ := hclosed m (buildGraph_ok_complete hb m hm)
    rw [hd] at he0
    exact absurd he0 (by simp)
  | error e =>
    obtain ⟨h1, h2⟩ := buildGraph_error_props hb
    have hbundle : bundle w cfg cache σ = .error e := by
      unfold bundle
      rw [hb]
    refine ⟨e, hbundle, h1, h2, ?_⟩
    rw [hbundle]
    rfl

/-- Counting a decidable predicate over a duplicate-free list agrees with
counting it over the list's finset. -/
lemma length_filter_eq_card_filter {l : List (Fin n)} (p : Fin n → Prop)
    [DecidablePred p] (hnd : l.Nodup) :
    (l.filter (fun m => decide (p m))).length = (l.toFinset.filter p).card := by
  have hnd2 : (l.filter (fun m => decide (p m))).Nodup := hnd.filter _
  rw [← List.toFinset_card_of_nodup hnd2, List.toFinset_filter]
  congr 1
  apply Finset.filter_congr
  intro x _
  simp

/-- The number of transform-cache hits of a build: graph modules (modules in
the import closure of the entries) whose cache key is present before the
build. -/
def cacheHitsSpec (w : World n) (cache : List String) : Nat :=
  ((closureF w w.entries.toFinset).filter (fun m => w.sourceHash m ∈ cache)).card

/-- The number of transform-cache misses of a build: graph modules whose
cache key is absent before the build. -/
def cacheMissesSpec (w : World n) (cache : List String) : Nat :=
  ((closureF w w.entries.toFinset).filter (fun m => w.sourceHash m ∉ cache)).card

/-- C4: the returned stats field cache_hit_rate equals the number of
transform-cache hits divided by hits plus misses, where hits and misses
count the one cache lookup of each graph module, and equals 0 when no
transforms were attempted (hits + misses = 0). -/
theorem c4_cache_hit_rate_formula {w : World n} {cfg : SplitCfg} {cache : List String}
    {σ : Nat → Nat} {r : BuildResult n} (h : bundle w cfg cache σ = .ok r) :
    r.stats.cacheHitRate =
      (if cacheHitsSpec w cache + cacheMissesSpec w cache = 0 then 0
       else (cacheHitsSpec w cache : Rat) /
         ((cacheHitsSpec w cache : Rat) + (cacheMissesSpec w cache : Rat))) := by
  obtain ⟨v, hv, rfl⟩ := bundle_ok_inv h
  have hrate : (mkResult w cfg cache v).stats.cacheHitRate =
      hitRate (((graphList v).filter (fun m => decide (w.sourceHash m ∈ cache))).length)
        (((graphList v).filter (fun m => decide (w.sourceHash m ∉ cache))).length) := rfl
  have h1 : ((graphList v).filter (fun m => decide (w.sourceHash m ∈ cache))).length =
      cacheHitsSpec w cache := by
    rw [length_filter_eq_card_filter _ (graphList_nodup v),
      graphList_toFinset_eq_closure hv]
    rfl
  have h2 : ((graphList v).filter (fun m => decide (w.sourceHash m ∉ cache))).length =
      cacheMissesSpec w cache := by
    rw [length_filter_eq_card_filter _ (graphList_nodup v),
      graphList_toFinset_eq_closure hv]
    rfl
  rw [hrate, h1, h2]
  rfl

/-- Modelled from the spec: the configured extension priority order of the
Dependency Resolver, which is not in the source tree. -/
def resolveExts : List String := [".js", ".jsx", ".ts", ".tsx", ".json"]

/-- Path join used when resolving a relative or absolute specifier against
the importing module's directory (path syntax is abstract here; only the
probe order matters). -/
def joinPath (dir p : String) : String := dir ++ "/" ++ p

/-- Modelled from the spec: one filesystem probe — a path resolves when it
names an existing file of the modelled filesystem. -/
def tryFile (fs : List String) (p : String) : Option String :=
  if p ∈ fs then some p else none

/-- Modelled from the spec: probe a base path with each configured
extension appended, in priority order. -/
def tryWithExts (fs : List String) (p : String) : Option String :=
  resolveExts.findSome? (fun e => tryFile fs (p ++ e))

/-- Modelled from the spec: probe the directory index files of a base path
with each configured extension, in the same priority order. -/
def tryIndexFile (fs : List String) (p : String) : Option String :=
  resolveExts.findSome? (fun e => tryFile fs (p ++ "/index" ++ e))

/-- Modelled from the spec: resolution of a relative or absolute specifier
against the importing module's directory — the literal path first, then the
path with extensions appended, then the directory index files. -/
def resolveRelative (fs : List String) (fromDir sp : String) : Option String :=
  match tryFile fs (joinPath fromDir sp) with
  | some r => some r
  | none =>
    match tryWithExts fs (joinPath fromDir sp) with
    | some r => some r
    | none => tryIndexFile fs (joinPath fromDir sp)

/-- The candidate list of relative resolution in priority order: the
literal path, the path with each extension in the fixed order, then the
index files with each extension in the same order. -/
def candidatePaths (fromDir sp : String) : List String :=
  joinPath fromDir sp ::
    (resolveExts.map (fun e => joinPath fromDir sp ++ e) ++
     resolveExts.map (fun e => joinPath fromDir sp ++ "/index" ++ e))

/-- Probing a candidate list returns its first existing member. -/
lemma findSome_tryFile_eq_find (fs : List String) :
    ∀ l : List String, l.findSome? (tryFile fs) = l.find? (fun c => decide (c ∈ fs)) := by
  intro l
  induction l with
  | nil => rfl
  | cons x xs ih =>
    by_cases hx : x ∈ fs
    · simp [List.findSome?_cons, List.find?_cons, tryFile, hx]
    · simp [List.findSome?_cons, List.find?_cons, tryFile, hx, ih]

/-- C5: relative and absolute specifier resolution probes, against the
directory of the requesting module, the literal path first, then the path
with each of the extensions .js, .jsx, .ts, .tsx, .json appended in that
fixed priority order, then the directory index files with the same
extensions in the same order, and returns the first candidate that exists:
it equals the first match over the ordered candidate list. -/
theorem c5_resolve_relative_probe_order (fs : List String) (fromDir sp : String) :
    resolveRelative fs fromDir sp =
      (candidatePaths fromDir sp).find? (fun c => decide (c ∈ fs)) := by
  rw [← findSome_tryFile_eq_find]
  unfold resolveRelative candidatePaths tryWithExts tryIndexFile
  rw [List.findSome?_cons]
  cases htf : tryFile fs (joinPath fromDir sp) with
  | some r => rfl
  | none =>
    rw [List.findSome?_append, List.findSome?_map, List.findSome?_map]
    cases h2 : List.findSome? (tryFile fs ∘ fun e => joinPath fromDir sp ++ e) resolveExts with
    | some r =>
      have h2' : List.findSome? (fun e => tryFile fs (joinPath fromDir sp ++ e))
          resolveExts = some r := h2
      rw [h2']
      rfl
    | none =>
      have h2' : List.findSome? (fun e => tryFile fs (joinPath fromDir sp ++ e))
          resolveExts = none := h2
      rw [h2']
      rfl

end Fob

namespace PyModel

/-- The outcome of executing a Python statement block: it returns a value
or it raises an exception. -/
inductive PyResult (ε α : Type)
  | ret (a : α)
  | exc (e : ε)
deriving DecidableEq, Repr

/-- Python try/finally semantics — run the body, then always run the
finally block on the resulting state, and let the body's outcome (return or
exception) stand afterwards. -/
def tryFinally {σ ε α : Type} (body : σ → PyResult ε α × σ) (cleanup : σ → σ)
    (s : σ) : PyResult ε α × σ :=
  let r := body s
  (r.1, cleanup r.2)

/-- Python try/except/finally semantics — run the body; on an exception run
the handler, whose outcome (a return or a new exception such as the
SystemExit raised by sys.exit) stands; then always run the finally block. -/
def tryExceptFinally {σ ε α : Type} (body : σ → PyResult ε α × σ)
    (handler : ε → σ → PyResult ε α × σ) (cleanup : σ → σ) (s : σ) :
    PyResult ε α × σ :=
  let r := body s
  let r2 := match r.1 with
    | .ret a => (PyResult.ret a, r.2)
    | .exc e => handler e r.2
  (r2.1, cleanup r2.2)

/-- The exceptions relevant to the example scripts: fob.FobError, any other
exception, and the SystemExit raised by sys.exit. -/
inductive PyExc
  | fobError (msg : String)
  | otherExc (msg : String)
  | systemExit (code : Nat)
deriving DecidableEq, Repr

/-- The process state observed by bundler.py's main: the current working
directory. -/
structure BundlerState where
  cwd : String
deriving DecidableEq, Repr

/-- Embedded from bundler.py main (lines 41 to 51): save
original_cwd = os.getcwd(), os.chdir(script_dir), then
try: result = await fob.bundle_single(...) finally: os.chdir(original_cwd).
The engine call is external to the repository, so its outcome — a result or
an exception — is a parameter. -/
def bundleSingleSection (scriptDir : String) (outcome : PyResult PyExc Unit)
    (s : BundlerState) : PyResult PyExc Unit × BundlerState :=
  let original_cwd := s.cwd
  let s1 : BundlerState := { cwd := scriptDir }
  tryFinally (fun s2 => (outcome, s2)) (fun s2 => { s2 with cwd := original_cwd }) s1

/-- C9: in bundler.py's main, the process working directory after the
bundle_single invocation completes equals the working directory saved
before the chdir to the script directory, on the success path and on every
exception path, because the restore runs in a finally block; the bundle
outcome itself passes through unchanged. -/
theorem c9_cwd_restored_after_bundle (scriptDir : String)
    (outcome : PyResult PyExc Unit) (s : BundlerState) :
    (bundleSingleSection scriptDir outcome s).2.cwd = s.cwd ∧
      (bundleSingleSection scriptDir outcome s).1 = outcome := by
  cases outcome <;> exact ⟨rfl, rfl⟩

/-- The filesystem state observed by inline_content.py's main: whether the
temporary output directory currently exists. -/
structure TempDirState where
  tempDirExists : Bool
deriving DecidableEq, Repr

/-- The three ways the test body of inline_content.py's main can end: all
four tests pass, fob.FobError is raised, or another exception is raised. -/
inductive InlineOutcome
  | allPass
  | fobErr (msg : String)
  | otherErr (msg : String)
deriving DecidableEq, Repr

/-- Embedded from inline_content.py main: temp_dir = tempfile.mkdtemp(...),
then try: the four bundling tests, except fob.FobError: sys.exit(1),
except Exception: sys.exit(1), finally: shutil.rmtree(temp_dir,
ignore_errors=True).  The engine calls are external to the repository, so
the body's outcome is a parameter; sys.exit raises SystemExit, and the
rmtree cleanup, with errors ignored, removes the directory. -/
def inlineMain (outcome : InlineOutcome) : PyResult PyExc Unit × TempDirState :=
  let s1 : TempDirState := { tempDirExists := true }
  tryExceptFinally
    (fun s => match outcome with
      | .allPass => (.ret (), s)
      | .fobErr m => (.exc (PyExc.fobError m), s)
      | .otherErr m => (.exc (PyExc.otherExc m), s))
    (fun e s => match e with
      | .fobError _ => (.exc (PyExc.systemExit 1), s)
      | .otherExc _ => (.exc (PyExc.systemExit 1), s)
      | .systemExit c => (.exc (PyExc.systemExit c), s))
    (fun s => { s with tempDirExists := false })
    s1

/-- C10: in inline_content.py's main, the temporary output directory
created at the start is removed before the function exits on every path —
after all tests pass, after a FobError (whose handler's sys.exit raises
SystemExit), and after any other exception — because the cleanup runs in a
finally block with errors ignored; the failing paths exit with
SystemExit 1. -/
theorem c10_temp_dir_always_cleaned (outcome : InlineOutcome) :
    (inlineMain outcome).2.tempDirExists = false ∧
      (inlineMain outcome).1 = (match outcome with
        | .allPass => PyResult.ret ()
        | .fobErr _ => PyResult.exc (PyExc.systemExit 1)
        | .otherErr _ => PyResult.exc (PyExc.systemExit 1)) := by
  cases outcome <;> exact ⟨rfl, rfl⟩

end PyModel

namespace Fob

/-- A concrete two-module world: the entry index.js statically imports a
local util.js and the externalized package react. -/
def wA : World 2 where
  entries := [0]
  transform := fun m =>
    if m = 0 then
      .ok { code := "code-index", sizeBytes := 120,
            imports :=
              [ { spec := "./util", kind := .staticImp, res := .localMod 1 },
                { spec := "react", kind := .staticImp, res := .externalPkg "react" } ] }
    else .ok { code := "code-util", sizeBytes := 80, imports := [] }
  sourceHash := fun m => if m = 0 then "hash-index" else "hash-util"
  name := fun m => if m = 0 then "index.js" else "util.js"

/-- A concrete splitting configuration. -/
def cfgA : SplitCfg := { minSize := 0, minImports := 2 }

/-- Witness for C1: on the concrete world wA the theorem applies with every
hypothesis discharged, for module 1. -/
theorem c1_witness :
    (∃ c ∈ (mkResult wA cfgA [] [0, 1]).chunks, (1 : Fin 2) ∈ c.modules) ↔ Reaches wA 1 :=
  @c1_chunk_modules_eq_import_closure 2 wA cfgA [] (fun _ => 0) (mkResult wA cfgA [] [0, 1])
    (by simp [bundle, buildGraph, visitLoop, visitModule, wA, MRec.localDeps]) 1

/-- Witness for C2: on the concrete world wA module 1 is reachable and lies
in exactly one chunk. -/
theorem c2_witness :
    ∃! c, c ∈ (mkResult wA cfgA [] [0, 1]).chunks ∧ (1 : Fin 2) ∈ c.modules :=
  @c2_chunks_partition_graph 2 wA cfgA [] (fun _ => 0) (mkResult wA cfgA [] [0, 1])
    (by simp [bundle, buildGraph, visitLoop, visitModule, wA, MRec.localDeps]) 1
    (Reaches.step 0 1 (Reaches.entry 0 (by decide)) (by decide))

/-- Witness for C3: on the concrete world wA, a run under a second,
different schedule returns the identical result. -/
theorem c3_witness :
    bundle wA cfgA [] (fun t => t + 1) = .ok (mkResult wA cfgA [] [0, 1]) :=
  @c3_deterministic_output 2 wA cfgA [] (fun _ => 0) (fun t => t + 1)
    (mkResult wA cfgA [] [0, 1])
    (by simp [bundle, buildGraph, visitLoop, visitModule, wA, MRec.localDeps])

/-- Witness for C4: on the concrete world wA with an empty pre-build cache
the hit-rate formula holds. -/
theorem c4_witness :
    (mkResult wA cfgA [] [0, 1]).stats.cacheHitRate =
      (if cacheHitsSpec wA [] + cacheMissesSpec wA [] = 0 then 0
       else (cacheHitsSpec wA [] : Rat) /
         ((cacheHitsSpec wA [] : Rat) + (cacheMissesSpec wA [] : Rat))) :=
  @c4_cache_hit_rate_formula 2 wA cfgA [] (fun _ => 0) (mkResult wA cfgA [] [0, 1])
    (by simp [bundle, buildGraph, visitLoop, visitModule, wA, MRec.localDeps])

/-- A concrete world whose entry main dynamically imports a lazy module. -/
def wD : World 2 where
  entries := [0]
  transform := fun m =>
    if m = 0 then
      .ok { code := "main", sizeBytes := 50,
            imports := [ { spec := "./lazy", kind := .dynamicImp, res := .localMod 1 } ] }
    else .ok { code := "lazy", sizeBytes := 40, imports := [] }
  sourceHash := fun m => if m = 0 then "hash-main" else "hash-lazy"
  name := fun m => if m = 0 then "main.js" else "lazy.js"

/-- A configuration whose size threshold exceeds every chunk, so the merge
pass is exercised. -/
def cfgD : SplitCfg := { minSize := 1000, minImports := 2 }

/-- Witness for C6: on the concrete world wD the dynamically imported
module 1 has its own chunk and never shares one with its importer 0, even
though both chunks are below the size threshold. -/
theorem c6_witness :
    (∃ c ∈ (mkResult wD cfgD [] [0, 1]).chunks, (1 : Fin 2) ∈ c.modules) ∧
      ∀ c ∈ (mkResult wD cfgD [] [0, 1]).chunks,
        (1 : Fin 2) ∈ c.modules → (0 : Fin 2) ∉ c.modules :=
  @c6_dynamic_import_isolation 2 wD cfgD [] (fun _ => 0) (mkResult wD cfgD [] [0, 1])
    (by simp [bundle, buildGraph, visitLoop, visitModule, wD, MRec.localDeps]) 1 0
    (Reaches.step 0 1 (Reaches.entry 0 (by decide)) (by decide))
    (by decide)
    (fun q _ hq => (by decide : ∀ q : Fin 2, 1 ∈ succs wD q → 1 ∈ dynImports wD q) q hq)
    (Reaches.entry 0 (by decide))
    (by decide)
    (by decide)

/-- A concrete two-module world with a mutual import cycle rooted at the
entry. -/
def wB : World 2 where
  entries := [0]
  transform := fun m =>
    if m = 0 then
      .ok { code := "cycle-a", sizeBytes := 10,
            imports := [ { spec := "./b", kind := .staticImp, res := .localMod 1 } ] }
    else
      .ok { code := "cycle-b", sizeBytes := 10,
            imports := [ { spec := "./a", kind := .staticImp, res := .localMod 0 } ] }
  sourceHash := fun m => if m = 0 then "hash-a" else "hash-b"
  name := fun m => if m = 0 then "a.js" else "b.js"

/-- Witness for C7: the two-module import cycle of wB completes graph
construction, visiting each module exactly once. -/
theorem c7_witness :
    ([0, 1] : List (Fin 2)).Nodup ∧ ∀ m, m ∈ ([0, 1] : List (Fin 2)) ↔ Reaches wB m :=
  @c7_cycles_terminate_once_each 2 wB (fun _ => 0) [0, 1]
    (by simp [buildGraph, visitLoop, visitModule, wB, MRec.localDeps])

/-- A concrete world whose single entry fails to transform, modelling a
nonexistent entry file. -/
def wC : World 1 where
  entries := [0]
  transform := fun _ => .error "entry file not found: nonexistent.js"
  sourceHash := fun _ => "hash-missing"
  name := fun _ => "nonexistent.js"

/-- Witness for C8: building wC aborts with one structured error naming the
failing entry, and writes zero files. -/
theorem c8_witness :
    ∃ e, bundle wC cfgA [] (fun _ => 0) = .error e ∧
      Reaches wC (BuildError.moduleOf e) ∧
      visitModule wC (BuildError.moduleOf e) = .error e ∧
      filesWritten (bundle wC cfgA [] (fun _ => 0)) = [] :=
  @c8_failure_aborts_build_no_files 1 wC cfgA [] (fun _ => 0) 0
    (Reaches.entry 0 (by decide))
    ⟨BuildError.transformFailed 0 "entry file not found: nonexistent.js", rfl⟩

end Fob
